import Mathlib

/-!
Verification of the `fraction_list_fmt_align` library (src/src/lib.rs).

The development shallowly embeds the library: strings are lists of
characters, and every fallible Rust function is modelled with an explicit
outcome type whose second constructor stands for a Rust panic (the library
signals every failure by panicking, e.g. by calling `Option::unwrap` on
`None`; it defines no error type and never returns a `Result`).
-/

namespace FractionListFmtAlign

/-- Character list of a string literal; the embedding works on `List Char`. -/
def str (s : String) : List Char :=
  s.data

/-- Outcome of calling a Rust function that may panic: `ok` models a normal
return and `panicked` models a Rust panic. -/
inductive RustOutcome (α : Type) where
  | ok : α → RustOutcome α
  | panicked : RustOutcome α
deriving DecidableEq

/-- The `FractionNumberParts` struct of the source: sign flag, whole-part
digit string, and optional (already normalized) fraction-part string. -/
structure FractionNumberParts where
  has_sign : Bool
  whole_part : List Char
  fraction_part : Option (List Char)
deriving DecidableEq

/-- `fraction_part_count_zeroes` from the source: walks the fraction string
backwards and increments the counter for every character equal to `0` that
it sees.  The Rust loop has no early exit, so it counts every zero in the
string, not only the trailing run. -/
def fraction_part_count_zeroes (fraction_part : List Char) : Nat :=
  fraction_part.foldr (fun c zeroes => if c = '0' then zeroes + 1 else zeroes) 0

/-- `fraction_part_remove_zeroes` from the source: keeps the slice
`[0 .. len - zeroes]` of the fraction string, where `zeroes` is the count
returned by `fraction_part_count_zeroes`. -/
def fraction_part_remove_zeroes (fraction_part : List Char) : List Char :=
  List.take (fraction_part.length - fraction_part_count_zeroes fraction_part) fraction_part

/-- `normalized_fraction_part_or_none` from the source: applies
`fraction_part_remove_zeroes` inside the option and turns an empty result
into `none`. -/
def normalized_fraction_part_or_none (fp : Option (List Char)) : Option (List Char) :=
  match fp.map fraction_part_remove_zeroes with
  | none => none
  | some x => if x = [] then none else some x

/-- The part of `get_fraction_number_parts` that runs after the optional
leading minus has been consumed.  The Rust regex is
`^(?P<sign>-)?(?P<whole_part>[0-9]+)(.(?P<fraction_part>[0-9]+))?$`; note
the unescaped dot, which is a wildcard for any character other than a line
feed.  With the greedy backtracking semantics of the regex crate the match
after the sign is equivalent to: a maximal nonempty digit run (the whole
part) followed either by the end of the input, or by one arbitrary
non-newline character and a nonempty digit run extending to the end (the
raw fraction part, which is then normalized).  A non-matching input makes
the source panic, because it calls `unwrap` on the capture result. -/
def getPartsAfterSign (has_sign : Bool) (rest : List Char) : RustOutcome FractionNumberParts :=
  if rest.takeWhile Char.isDigit = [] then
    RustOutcome.panicked
  else
    match rest.dropWhile Char.isDigit with
    | [] =>
      RustOutcome.ok
        ⟨has_sign, rest.takeWhile Char.isDigit, normalized_fraction_part_or_none none⟩
    | c :: t =>
      if c ≠ '\n' ∧ t ≠ [] ∧ t.all Char.isDigit = true then
        RustOutcome.ok
          ⟨has_sign, rest.takeWhile Char.isDigit, normalized_fraction_part_or_none (some t)⟩
      else
        RustOutcome.panicked

/-- `get_fraction_number_parts` from the source: optional leading minus sets
`has_sign`, the remainder is matched as described at `getPartsAfterSign`. -/
def get_fraction_number_parts (formatted_fraction_num : List Char) : RustOutcome FractionNumberParts :=
  match formatted_fraction_num with
  | '-' :: rest => getPartsAfterSign true rest
  | other => getPartsAfterSign false other

/-- The `current_len` computed inside the aligner loop: whole-part width
plus one for the sign when present. -/
def current_len (f : FractionNumberParts) : Nat :=
  f.whole_part.length + (if f.has_sign then 1 else 0)

/-- The sign-plus-whole-part prefix of the rendered string. -/
def signWhole (f : FractionNumberParts) : List Char :=
  if f.has_sign then '-' :: f.whole_part else f.whole_part

/-- The `regular_format` string built inside the aligner loop: the whole
part, then `.fraction` when a fraction part is present, then a leading `-`
when the sign flag is set. -/
def render (f : FractionNumberParts) : List Char :=
  let regular_format := f.whole_part
  let regular_format :=
    match f.fraction_part with
    | some val => regular_format ++ '.' :: val
    | none => regular_format
  if f.has_sign then '-' :: regular_format else regular_format

/-- The `max_len_whole_part_including_sign` value of the aligner: the raw
maximum whole-part width, plus one when some entry of maximal whole-part
width carries a sign. -/
def reservedWholeWidth (fract_parts : List FractionNumberParts) (max_digits_whole_part : Nat) : Nat :=
  if (fract_parts.filter fun x => x.whole_part.length == max_digits_whole_part).any
      (fun x => x.has_sign) then
    max_digits_whole_part + 1
  else
    max_digits_whole_part

/-- One iteration of the aligner loop: left-pad the rendered string with
spaces up to the reserved whole-part-plus-sign width. -/
def alignOne (max_len_whole_part_including_sign : Nat) (f : FractionNumberParts) : List Char :=
  List.replicate (max_len_whole_part_including_sign - current_len f) ' ' ++ render f

/-- Parsing pass of `fmt_align_fraction_strings`: `get_fraction_number_parts`
mapped over the input; a panic of any parse is a panic of the whole call. -/
def parseAll : List (List Char) → RustOutcome (List FractionNumberParts)
  | [] => RustOutcome.ok []
  | s :: rest =>
    match get_fraction_number_parts s, parseAll rest with
    | RustOutcome.ok p, RustOutcome.ok ps => RustOutcome.ok (p :: ps)
    | _, _ => RustOutcome.panicked

/-- `fmt_align_fraction_strings` from the source: parse every input string,
take the maximum whole-part width (`.max().unwrap()` panics on an empty
list), decide whether a sign column is reserved, and left-pad every
rendered entry accordingly.  The source never right-pads. -/
def fmt_align_fraction_strings (strings : List (List Char)) : RustOutcome (List (List Char)) :=
  match parseAll strings with
  | RustOutcome.panicked => RustOutcome.panicked
  | RustOutcome.ok fract_parts =>
    match (fract_parts.map fun x => x.whole_part.length).max? with
    | none => RustOutcome.panicked
    | some max_digits_whole_part =>
      RustOutcome.ok
        (fract_parts.map (alignOne (reservedWholeWidth fract_parts max_digits_whole_part)))

/-- Number of leading space characters of an output string. -/
def leadingSpaces (o : List Char) : Nat :=
  (o.takeWhile fun c => c == ' ').length

/-- Character position of the decimal point of an output string, or of its
final character when no decimal point occurs. -/
def anchorPos (o : List Char) : Nat :=
  match o.findIdx? (fun c => c == '.') with
  | some i => i
  | none => o.length - 1

/-- Modelled from the spec: trimming exactly the trailing zero characters
from a raw fractional digit string, preserving interior and leading
zeroes. -/
def spec_trimTrailingZeroes (fraction_part : List Char) : List Char :=
  (fraction_part.reverse.dropWhile fun c => c == '0').reverse

/-- Modelled from the spec: the input grammar `-? digit+ (. digit+)?` where
the dot is a literal decimal point. -/
def spec_matchesGrammar (s : List Char) : Bool :=
  let t :=
    match s with
    | '-' :: t => t
    | other => other
  match t.dropWhile Char.isDigit with
  | [] => !(t.takeWhile Char.isDigit).isEmpty
  | '.' :: rest =>
    !(t.takeWhile Char.isDigit).isEmpty && !rest.isEmpty && rest.all Char.isDigit
  | _ => false

/-- Modelled from the spec: the fixed-precision float formatting used by
`FractionNumber::format` (the standard library `format` macro, which is not
part of this repository) renders a NaN value of either bit width as the
literal token `NaN` at every precision. -/
def formatNaN (precision : Nat) : List Char :=
  str "NaN"

/-- `fmt_align_fractions` from the source, specialized to a list of NaN
inputs: the source formats every float with `FractionNumber::format` and
hands the resulting strings to `fmt_align_fraction_strings`; with `n` NaN
inputs the formatted list is `n` copies of the token `NaN`. -/
def fmt_align_fractions_allNaN (n : Nat) (precision : Nat) : RustOutcome (List (List Char)) :=
  fmt_align_fraction_strings (List.replicate n (formatNaN precision))

/-- Well-formedness of parsed parts: the whole part is a nonempty digit
string and the fraction part, when present, is a nonempty digit string. -/
def WellFormedParts (p : FractionNumberParts) : Prop :=
  p.whole_part ≠ [] ∧ p.whole_part.all Char.isDigit = true ∧
    ∀ v, p.fraction_part = some v → v ≠ [] ∧ v.all Char.isDigit = true

lemma takeWhile_all {α : Type} (p : α → Bool) (l : List α) :
    (l.takeWhile p).all p = true := by
  rw [List.all_eq_true]
  exact fun x hx => List.mem_takeWhile_imp hx

lemma normalized_some_sub {t v : List Char}
    (h : normalized_fraction_part_or_none (some t) = some v) :
    v ≠ [] ∧ v.Sublist t := by
  have h' : (if fraction_part_remove_zeroes t = [] then none
      else some (fraction_part_remove_zeroes t)) = some v := h
  split at h'
  · exact Option.noConfusion h'
  · rename_i hne
    cases h'
    refine ⟨hne, ?_⟩
    unfold fraction_part_remove_zeroes
    exact List.take_sublist _ _

lemma sublist_all {p : Char → Bool} {v t : List Char}
    (hs : v.Sublist t) (ht : t.all p = true) : v.all p = true := by
  rw [List.all_eq_true] at ht ⊢
  exact fun x hx => ht x (List.Sublist.mem hx hs)

lemma getPartsAfterSign_wf {b : Bool} {rest : List Char} {p : FractionNumberParts}
    (h : getPartsAfterSign b rest = RustOutcome.ok p) : WellFormedParts p := by
  unfold getPartsAfterSign at h
  split at h
  · exact RustOutcome.noConfusion h
  · rename_i hw
    split at h
    · cases h
      refine ⟨hw, takeWhile_all _ _, ?_⟩
      intro v hv
      exact Option.noConfusion hv
    · split at h
      · rename_i hcond
        cases h
        refine ⟨hw, takeWhile_all _ _, ?_⟩
        intro v hv
        obtain ⟨hne, hsub⟩ := normalized_some_sub hv
        exact ⟨hne, sublist_all hsub hcond.2.2⟩
      · exact RustOutcome.noConfusion h

lemma get_fraction_number_parts_wf {s : List Char} {p : FractionNumberParts}
    (h : get_fraction_number_parts s = RustOutcome.ok p) : WellFormedParts p := by
  unfold get_fraction_number_parts at h
  split at h <;> exact getPartsAfterSign_wf h

lemma parseAll_wf {strings : List (List Char)} {ps : List FractionNumberParts}
    (h : parseAll strings = RustOutcome.ok ps) :
    ∀ p ∈ ps, WellFormedParts p := by
  induction strings generalizing ps with
  | nil =>
    cases h
    intro p hp
    exact absurd hp (List.not_mem_nil p)
  | cons s rest ih =>
    unfold parseAll at h
    cases hg : get_fraction_number_parts s with
    | panicked =>
      rw [hg] at h
      cases hr : parseAll rest <;> rw [hr] at h <;> exact RustOutcome.noConfusion h
    | ok p₀ =>
      rw [hg] at h
      cases hr : parseAll rest with
      | panicked => rw [hr] at h; exact RustOutcome.noConfusion h
      | ok ps₀ =>
        rw [hr] at h
        cases h
        intro p hp
        rcases List.mem_cons.mp hp with rfl | hp'
        · exact get_fraction_number_parts_wf hg
        · exact ih hr p hp'

lemma parseAll_cons_panicked {s : List Char} (rest : List (List Char))
    (h : get_fraction_number_parts s = RustOutcome.panicked) :
    parseAll (s :: rest) = RustOutcome.panicked := by
  unfold parseAll
  rw [h]

lemma fmt_ok_elim {strings : List (List Char)} {out : List (List Char)}
    (h : fmt_align_fraction_strings strings = RustOutcome.ok out) :
    ∃ ps maxW, parseAll strings = RustOutcome.ok ps ∧
      (ps.map fun x => x.whole_part.length).max? = some maxW ∧
      out = ps.map (alignOne (reservedWholeWidth ps maxW)) := by
  unfold fmt_align_fraction_strings at h
  cases hps : parseAll strings with
  | panicked => rw [hps] at h; exact RustOutcome.noConfusion h
  | ok ps =>
    rw [hps] at h
    have h' : (match (ps.map fun x => x.whole_part.length).max? with
        | none => (RustOutcome.panicked : RustOutcome (List (List Char)))
        | some m => RustOutcome.ok (ps.map (alignOne (reservedWholeWidth ps m)))) =
        RustOutcome.ok out := h
    cases hm : (ps.map fun x => x.whole_part.length).max? with
    | none => rw [hm] at h'; exact RustOutcome.noConfusion h'
    | some maxW =>
      rw [hm] at h'
      cases h'
      exact ⟨ps, maxW, rfl, hm, rfl⟩

lemma le_of_mem_max? {l : List Nat} {m : Nat} (h : l.max? = some m)
    {a : Nat} (ha : a ∈ l) : a ≤ m := by
  have h' := (List.max?_eq_some_iff (fun a => le_refl a) (fun a b => max_choice a b)
    (fun a b c => max_le_iff)).mp h
  exact h'.2 a ha

lemma current_len_le_reserved {ps : List FractionNumberParts} {maxW : Nat}
    (hm : (ps.map fun x => x.whole_part.length).max? = some maxW)
    {p : FractionNumberParts} (hp : p ∈ ps) :
    current_len p ≤ reservedWholeWidth ps maxW := by
  have hle : p.whole_part.length ≤ maxW :=
    le_of_mem_max? hm (List.mem_map.mpr ⟨p, hp, rfl⟩)
  cases hs : p.has_sign with
  | false =>
    have hc : current_len p = p.whole_part.length := by simp [current_len, hs]
    rw [hc]
    unfold reservedWholeWidth
    split <;> omega
  | true =>
    have hc : current_len p = p.whole_part.length + 1 := by simp [current_len, hs]
    rw [hc]
    by_cases hmax : p.whole_part.length = maxW
    · have hany : ((ps.filter fun x => x.whole_part.length == maxW).any
          fun x => x.has_sign) = true := by
        rw [List.any_eq_true]
        exact ⟨p, List.mem_filter.mpr ⟨hp, by simp [hmax]⟩, hs⟩
      unfold reservedWholeWidth
      rw [if_pos hany]
      omega
    · have hlt : p.whole_part.length < maxW := Nat.lt_of_le_of_ne hle hmax
      unfold reservedWholeWidth
      split <;> omega

lemma render_none {f : FractionNumberParts} (hf : f.fraction_part = none) :
    render f = signWhole f := by
  unfold render signWhole
  rw [hf]

lemma render_some {f : FractionNumberParts} {v : List Char}
    (hf : f.fraction_part = some v) :
    render f = signWhole f ++ '.' :: v := by
  unfold render signWhole
  rw [hf]
  cases f.has_sign <;> simp

lemma signWhole_length (f : FractionNumberParts) :
    (signWhole f).length = current_len f := by
  unfold signWhole current_len
  cases f.has_sign <;> simp

lemma signWhole_ne_nil {f : FractionNumberParts} (hw : f.whole_part ≠ []) :
    signWhole f ≠ [] := by
  unfold signWhole
  cases f.has_sign
  · simpa using hw
  · simp

lemma getLast?_signWhole {f : FractionNumberParts} (hw : f.whole_part ≠ []) :
    (signWhole f).getLast? = f.whole_part.getLast? := by
  unfold signWhole
  cases f.has_sign
  · rw [if_neg (by simp)]
  · rw [if_pos rfl]
    rw [show ('-' :: f.whole_part) = ['-'] ++ f.whole_part from rfl]
    exact List.getLast?_append_of_ne_nil _ hw

lemma takeWhile_space_signWhole_append {f : FractionNumberParts}
    (hwf : WellFormedParts f) (X : List Char) :
    ((signWhole f ++ X).takeWhile fun c => c == ' ') = [] := by
  obtain ⟨hw, hwd, -⟩ := hwf
  obtain ⟨d, w', hwe⟩ := List.exists_cons_of_ne_nil hw
  have hd : d.isDigit = true := by
    rw [List.all_eq_true] at hwd
    exact hwd d (by rw [hwe]; exact List.mem_cons_self _ _)
  have hds : (d == ' ') = false := by
    cases hbe : d == ' '
    · rfl
    · exact absurd hd (by rw [eq_of_beq hbe]; decide)
  have hms : (('-' : Char) == ' ') = false := rfl
  unfold signWhole
  cases f.has_sign
  · simp [hwe, List.takeWhile_cons, hds]
  · simp [List.takeWhile_cons, hms]

lemma takeWhile_space_render {f : FractionNumberParts} (hwf : WellFormedParts f) :
    ((render f).takeWhile fun c => c == ' ') = [] := by
  rcases hf : f.fraction_part with _ | v
  · rw [render_none hf, ← List.append_nil (signWhole f)]
    exact takeWhile_space_signWhole_append hwf []
  · rw [render_some hf]
    exact takeWhile_space_signWhole_append hwf _

lemma leadingSpaces_alignOne {R : Nat} {f : FractionNumberParts}
    (hwf : WellFormedParts f) :
    leadingSpaces (alignOne R f) = R - current_len f := by
  unfold leadingSpaces alignOne
  have hrep : ((List.replicate (R - current_len f) ' ').takeWhile fun c => c == ' ') =
      List.replicate (R - current_len f) ' ' := by
    rw [List.takeWhile_replicate]
    rfl
  rw [List.takeWhile_append, hrep, if_pos rfl, takeWhile_space_render hwf,
    List.append_nil, List.length_replicate]

lemma drop_length_append {α : Type} (l1 l2 : List α) {n : Nat} (h : l1.length = n) :
    (l1 ++ l2).drop n = l2 := by
  subst h
  exact List.drop_left _ _

lemma drop_alignOne_some {R : Nat} {f : FractionNumberParts} {v : List Char}
    (hc : current_len f ≤ R) (hv : f.fraction_part = some v) :
    (alignOne R f).drop R = '.' :: v := by
  unfold alignOne
  rw [render_some hv, ← List.append_assoc]
  refine drop_length_append _ _ ?_
  rw [List.length_append, List.length_replicate, signWhole_length]
  omega

lemma length_alignOne_none {R : Nat} {f : FractionNumberParts}
    (hc : current_len f ≤ R) (hf : f.fraction_part = none) :
    (alignOne R f).length = R := by
  unfold alignOne
  rw [render_none hf, List.length_append, List.length_replicate, signWhole_length]
  omega

lemma getLast_digit {l : List Char} (hne : l ≠ []) (hd : l.all Char.isDigit = true) :
    ∃ c, l.getLast? = some c ∧ c.isDigit = true := by
  refine ⟨l.getLast hne, List.getLast?_eq_getLast l hne, ?_⟩
  rw [List.all_eq_true] at hd
  exact hd _ (List.getLast_mem hne)

lemma alignOne_getLast_digit {R : Nat} {f : FractionNumberParts}
    (hwf : WellFormedParts f) :
    ∃ c, (alignOne R f).getLast? = some c ∧ c.isDigit = true := by
  obtain ⟨hw, hwd, hfr⟩ := hwf
  unfold alignOne
  rcases hf : f.fraction_part with _ | v
  · rw [render_none hf, List.getLast?_append_of_ne_nil _ (signWhole_ne_nil hw),
      getLast?_signWhole hw]
    exact getLast_digit hw hwd
  · obtain ⟨hvne, hvd⟩ := hfr v hf
    rw [render_some hf, List.getLast?_append_of_ne_nil _ (by simp),
      List.getLast?_append_of_ne_nil _ (by simp : ('.' :: v : List Char) ≠ []),
      show ('.' :: v : List Char) = ['.'] ++ v from rfl,
      List.getLast?_append_of_ne_nil _ hvne]
    exact getLast_digit hvne hvd

lemma zip_map_self {α β : Type} (f : α → β) (l : List α) {po : α × β}
    (hpo : po ∈ l.zip (l.map f)) : po.1 ∈ l ∧ po.2 = f po.1 := by
  induction l with
  | nil => exact absurd hpo (by simp)
  | cons a l ih =>
    simp only [List.map_cons, List.zip_cons_cons] at hpo
    rcases List.mem_cons.mp hpo with h | h
    · rw [h]
      exact ⟨List.mem_cons_self _ _, rfl⟩
    · obtain ⟨h1, h2⟩ := ih h
      exact ⟨List.mem_cons_of_mem _ h1, h2⟩

/-- C1: the claim's quoted example `-10.1200` does parse to sign set, whole
part `10`, fraction part `12`, but the general trailing-only trimming claim
fails: on input `0.1020` the code counts both zeroes of the raw fraction
`1020` (the counting loop never stops at the first non-zero) and slices two
characters off the end, producing fraction part `10`, while trimming only
the trailing zeroes as the claim states would produce `102`. -/
theorem c1_code_eval :
    get_fraction_number_parts (str "-10.1200") =
      RustOutcome.ok ⟨true, str "10", some (str "12")⟩ ∧
    get_fraction_number_parts (str "0.1020") =
      RustOutcome.ok ⟨false, str "0", some (str "10")⟩ ∧
    spec_trimTrailingZeroes (str "1020") = str "102" ∧
    fraction_part_remove_zeroes (str "1020") ≠ spec_trimTrailingZeroes (str "1020") := by
  refine ⟨by decide, by decide, by decide, by decide⟩

/-- C2: the parser does not reject exactly the complement of the grammar
`-? digit+ (. digit+)?` with a literal decimal point: because the dot in
the source regex is an unescaped wildcard, the input `1x5` (which the
grammar rejects) is accepted and even produces the aligned output `1.5`,
and a genuinely malformed input such as `12.3.4` makes the call panic via
`unwrap` instead of returning an error value. -/
theorem c2_code_eval :
    spec_matchesGrammar (str "1x5") = false ∧
    get_fraction_number_parts (str "1x5") =
      RustOutcome.ok ⟨false, str "1", some (str "5")⟩ ∧
    fmt_align_fraction_strings [str "1x5"] = RustOutcome.ok [str "1.5"] ∧
    fmt_align_fraction_strings [str "12.3.4"] = RustOutcome.panicked := by
  refine ⟨by decide, by decide, by decide, by decide⟩

/-- C3 counterexample: on the claimed five-entry input the aligner returns
the left-padded strings without any trailing-space equalization, which
differs from the right-padded output stated by the claim. -/
theorem c3_counterexample :
    fmt_align_fraction_strings
      [str "-42", str "0.3214", str "1000", str "-1000.2", str "2.00000"] =
      RustOutcome.ok
        [str "  -42", str "    0.3214", str " 1000", str "-1000.2", str "    2"] ∧
    [str "  -42", str "    0.3214", str " 1000", str "-1000.2", str "    2"] ≠
      [str "  -42     ", str "    0.3214", str " 1000     ", str "-1000.2   ",
        str "    2     "] := by
  refine ⟨by decide, by decide⟩

/-- C3 amended: for the input list `-42`, `0.3214`, `1000`, `-1000.2`,
`2.00000` the aligner returns exactly `  -42`, `    0.3214`, ` 1000`,
`-1000.2`, `    2` — left padding only, with no trailing spaces, so the
output lengths are 5, 10, 5, 7 and 5. -/
theorem c3_actual_output :
    fmt_align_fraction_strings
      [str "-42", str "0.3214", str "1000", str "-1000.2", str "2.00000"] =
      RustOutcome.ok
        [str "  -42", str "    0.3214", str " 1000", str "-1000.2", str "    2"] := by
  decide

/-- C4: for every parsed input list whose maximum whole-part width is
`maxW`, the reserved whole-part-plus-sign width equals `maxW + 1` exactly
when some entry of whole-part width `maxW` carries a sign, and equals
`maxW` otherwise. -/
theorem c4_reserved_width
    (strings : List (List Char)) (ps : List FractionNumberParts) (maxW : Nat)
    (hps : parseAll strings = RustOutcome.ok ps)
    (hm : (ps.map fun x => x.whole_part.length).max? = some maxW) :
    (reservedWholeWidth ps maxW = maxW + 1 ↔
      ∃ p ∈ ps, p.whole_part.length = maxW ∧ p.has_sign = true) ∧
    (¬ (∃ p ∈ ps, p.whole_part.length = maxW ∧ p.has_sign = true) →
      reservedWholeWidth ps maxW = maxW) := by
  have hiff : ((ps.filter fun x => x.whole_part.length == maxW).any
      fun x => x.has_sign) = true ↔
      ∃ p ∈ ps, p.whole_part.length = maxW ∧ p.has_sign = true := by
    rw [List.any_eq_true]
    constructor
    · rintro ⟨x, hx, hsx⟩
      obtain ⟨hx1, hx2⟩ := List.mem_filter.mp hx
      exact ⟨x, hx1, by simpa using hx2, hsx⟩
    · rintro ⟨p, hp, hl, hs⟩
      exact ⟨p, List.mem_filter.mpr ⟨hp, by simpa using hl⟩, hs⟩
  constructor
  · unfold reservedWholeWidth
    by_cases hb : ((ps.filter fun x => x.whole_part.length == maxW).any
        fun x => x.has_sign) = true
    · rw [if_pos hb]
      exact iff_of_true rfl (hiff.mp hb)
    · rw [if_neg hb]
      exact iff_of_false (by omega) (fun hex => hb (hiff.mpr hex))
  · intro hnex
    unfold reservedWholeWidth
    rw [if_neg fun hb => hnex (hiff.mp hb)]

/-- C4 witness: for the inputs `-42` and `7` the maximum whole-part width
is 2, the signed entry `-42` sits at that width, and the reserved width is
2 + 1. -/
theorem c4_reserved_width_witness :
    reservedWholeWidth [⟨true, str "42", none⟩, ⟨false, str "7", none⟩] 2 = 2 + 1 :=
  (c4_reserved_width [str "-42", str "7"]
    [⟨true, str "42", none⟩, ⟨false, str "7", none⟩] 2 (by decide) (by decide)).1.mpr
    ⟨⟨true, str "42", none⟩, by decide, by decide, by decide⟩

/-- C5 counterexample: for the inputs `1` and `2.5` the aligner returns `1`
and `2.5`; the anchor position — decimal point when present, final
character otherwise — is 0 for the first output and 1 for the second, so
the claimed common character position does not exist. -/
theorem c5_counterexample :
    fmt_align_fraction_strings [str "1", str "2.5"] =
      RustOutcome.ok [str "1", str "2.5"] ∧
    anchorPos (str "1") = 0 ∧ anchorPos (str "2.5") = 1 ∧
    anchorPos (str "1") ≠ anchorPos (str "2.5") := by
  refine ⟨by decide, by decide, by decide, by decide⟩

/-- C5 amended: every output is its rendered core string prefixed by
exactly reserved-width minus sign-plus-whole-width spaces; consequently the
whole-part digits of every output end at the reserved column: an output
with a fraction part has its decimal point exactly at index `R` (the
reserved width) and an output without one has length exactly `R`, i.e. its
final whole-part digit at index `R - 1`, one column left of where decimal
points sit. -/
theorem c5_alignment
    (strings : List (List Char)) (ps : List FractionNumberParts) (maxW : Nat)
    (out : List (List Char))
    (hps : parseAll strings = RustOutcome.ok ps)
    (hm : (ps.map fun x => x.whole_part.length).max? = some maxW)
    (hout : fmt_align_fraction_strings strings = RustOutcome.ok out) :
    ∀ po ∈ ps.zip out,
      po.2 = alignOne (reservedWholeWidth ps maxW) po.1 ∧
      leadingSpaces po.2 = reservedWholeWidth ps maxW - current_len po.1 ∧
      (∀ v, po.1.fraction_part = some v →
        po.2.drop (reservedWholeWidth ps maxW) = '.' :: v) ∧
      (po.1.fraction_part = none →
        po.2.length = reservedWholeWidth ps maxW) := by
  obtain ⟨ps', maxW', hps', hm', hout'⟩ := fmt_ok_elim hout
  rw [hps] at hps'
  injection hps' with hpe
  subst hpe
  rw [hm] at hm'
  injection hm' with hme
  subst hme
  subst hout'
  intro po hpo
  obtain ⟨hp1, hp2⟩ := zip_map_self _ _ hpo
  have hwf := parseAll_wf hps po.1 hp1
  have hc := current_len_le_reserved hm hp1
  refine ⟨hp2, ?_, ?_, ?_⟩
  · rw [hp2]
    exact leadingSpaces_alignOne hwf
  · intro v hv
    rw [hp2]
    exact drop_alignOne_some hc hv
  · intro hf
    rw [hp2]
    exact length_alignOne_none hc hf

/-- C5 witness: for the single input `-10.1200` the reserved width is 3,
the output `-10.12` carries no leading spaces and its decimal point sits at
index 3. -/
theorem c5_alignment_witness :
    leadingSpaces (str "-10.12") = 0 ∧ (str "-10.12").drop 3 = '.' :: str "12" := by
  have h := c5_alignment [str "-10.1200"] [⟨true, str "10", some (str "12")⟩] 2
    [str "-10.12"] (by decide) (by decide) (by decide)
  have hm := h (⟨true, str "10", some (str "12")⟩, str "-10.12") (by decide)
  exact ⟨hm.2.1, hm.2.2.1 (str "12") rfl⟩

/-- C6: the claimed invariant fails: parsing `0.0500` yields the fraction
part `0`, a nonempty string consisting solely of zero digits, because the
zero-counting helper counts the leading zero of `0500` as well and the
removal therefore cuts `50` off the end instead of just `00`. -/
theorem c6_code_eval :
    get_fraction_number_parts (str "0.0500") =
      RustOutcome.ok ⟨false, str "0", some (str "0")⟩ ∧
    (str "0").all (fun c => c == '0') = true := by
  refine ⟨by decide, by decide⟩

/-- C7: the claim's quoted example holds — aligning `1.000000000` yields
`1` with the fraction absent — but normalization is not idempotent: the
raw fraction `1020` normalizes to `10`, and normalizing that result again
yields `1`, because the zero count of `10` is still positive. -/
theorem c7_code_eval :
    fmt_align_fraction_strings [str "1.000000000"] = RustOutcome.ok [str "1"] ∧
    normalized_fraction_part_or_none (some (str "1020")) = some (str "10") ∧
    normalized_fraction_part_or_none (some (str "10")) = some (str "1") ∧
    normalized_fraction_part_or_none (some (str "10")) ≠ some (str "10") := by
  refine ⟨by decide, by decide, by decide, by decide⟩

/-- C8 counterexample: two NaN inputs are formatted to the token `NaN`,
which the aligner's parser rejects, so `fmt_align_fractions` panics instead
of returning the claimed output list `NaN`, `NaN`. -/
theorem c8_counterexample :
    fmt_align_fractions_allNaN 2 0 = RustOutcome.panicked ∧
    fmt_align_fractions_allNaN 2 0 ≠ RustOutcome.ok [str "NaN", str "NaN"] := by
  refine ⟨by decide, by decide⟩

/-- C8 amended: for every list of NaN inputs and every precision,
`fmt_align_fractions` panics — the formatter renders each NaN as the token
`NaN`, the parsing regex rejects that token (it contains no digits), and
the `unwrap` on the capture panics; with zero inputs the `max()` unwrap of
the aligner panics instead.  No output containing `NaN` is ever
produced. -/
theorem c8_nan_panics (n precision : Nat) :
    fmt_align_fractions_allNaN n precision = RustOutcome.panicked := by
  cases n with
  | zero => rfl
  | succ m =>
    unfold fmt_align_fractions_allNaN fmt_align_fraction_strings
    rw [List.replicate_succ, parseAll_cons_panicked _ (by rfl)]

/-- C9 counterexample: on the empty input list the aligner panics (the
`max()` of an empty iterator is `None` and the source unwraps it); it does
not return any `ok` value, in particular not an empty result, and the
library has no error value it could surface. -/
theorem c9_counterexample :
    fmt_align_fraction_strings [] = RustOutcome.panicked ∧
    (RustOutcome.panicked : RustOutcome (List (List Char))) ≠ RustOutcome.ok [] := by
  refine ⟨by decide, by decide⟩

/-- C9 amended: zero entries make `fmt_align_fraction_strings` panic via
`unwrap` on the empty-iterator maximum; the failure is a crash, not an
error value returned to the caller. -/
theorem c9_empty_panics :
    fmt_align_fraction_strings [] = RustOutcome.panicked := by
  decide

/-- C10: every output string of a successful alignment call ends in a digit
character — the aligner never right-pads — and the outputs of one call can
have different lengths, as the inputs `1` and `2.5` show. -/
theorem c10_no_trailing_spaces :
    (∀ strings out, fmt_align_fraction_strings strings = RustOutcome.ok out →
      ∀ o ∈ out, ∃ c, o.getLast? = some c ∧ c.isDigit = true) ∧
    fmt_align_fraction_strings [str "1", str "2.5"] =
      RustOutcome.ok [str "1", str "2.5"] ∧
    (str "1").length ≠ (str "2.5").length := by
  refine ⟨?_, by decide, by decide⟩
  intro strings out hout o ho
  obtain ⟨ps, maxW, hps, hm, rfl⟩ := fmt_ok_elim hout
  obtain ⟨p, hp, rfl⟩ := List.mem_map.mp ho
  exact alignOne_getLast_digit (parseAll_wf hps p hp)

/-- C10 witness: in the five-entry example the second output `    0.3214`
ends in the digit 4. -/
theorem c10_no_trailing_spaces_witness :
    ∃ c, (str "    0.3214").getLast? = some c ∧ c.isDigit = true :=
  c10_no_trailing_spaces.1
    [str "-42", str "0.3214", str "1000", str "-1000.2", str "2.00000"]
    [str "  -42", str "    0.3214", str " 1000", str "-1000.2", str "    2"]
    (by decide) (str "    0.3214") (by decide)

end FractionListFmtAlign
